import Mathlib

/-!
Verification of the tui_repl repository: a shallow embedding of the
command-history ring (src/history.rs), the Repl key-event state machine
(src/lib.rs) and the viewport windowing function (src/util.rs), together
with proofs settling the frozen specification claims.

Conventions of the embedding:
- Rust Vec of char becomes List Char; the transcript String also becomes
  List Char (the code only appends chars and compares text).
- usize arithmetic becomes Nat; the cursor_pos field is u16 in the source,
  so the casts written as u16 in Rust appear here as reduction mod 65536
  and saturation at 65535.
- operations that can panic in Rust (index underflow followed by an
  out-of-bounds Vec insert) return Option; a none result models the panic.
- the const generic capacity N of History becomes an explicit Nat argument
  of the operations that read it.
-/

namespace TuiRepl

/-- History struct of src/history.rs: a bounded command ring.
The field stored_commands is the fixed array of N slots (length N kept as
a well-formedness predicate, mirroring the const generic). -/
structure History where
  len : Nat
  cur : Option Nat
  stored_commands : List (List Char)
deriving DecidableEq, Repr

/-- Well-formedness that the Rust type system gives for free: the slot
array has exactly N entries and len never exceeds the capacity. -/
def History.wf (N : Nat) (h : History) : Prop :=
  h.stored_commands.length = N ∧ h.len ≤ N

instance (N : Nat) (h : History) : Decidable (History.wf N h) := by
  unfold History.wf; infer_instance

/-- History::new / Default::default: empty ring, every slot an empty Vec. -/
def History.new (N : Nat) : History :=
  { len := 0, cur := none, stored_commands := List.replicate N [] }

/-- History::with_initial: starts from new and assigns the zipped prefix of
the iterator into the slots. The zip writes the first min N (length initial)
slots; the remaining slots keep their empty value. The len field is not
touched by the source. -/
def History.with_initial (N : Nat) (initial : List (List Char)) : History :=
  let me := History.new N
  { me with
    stored_commands :=
      initial.take N ++ me.stored_commands.drop (min N initial.length) }

/-- Rust char::is_whitespace: the Unicode White_Space property, listed by
code point (tab through carriage return, space, next line, no-break
space, ogham space mark, the en-quad..hair-space range, line and
paragraph separators, narrow no-break space, medium mathematical space,
ideographic space). -/
def rustIsWhitespace (c : Char) : Bool :=
  let n := c.toNat
  n == 0x09 || n == 0x0A || n == 0x0B || n == 0x0C || n == 0x0D || n == 0x20
    || n == 0x85 || n == 0xA0 || n == 0x1680
    || decide (0x2000 ≤ n ∧ n ≤ 0x200A)
    || n == 0x2028 || n == 0x2029 || n == 0x202F || n == 0x205F || n == 0x3000

/-- History::push. The source first resets cur to None and then branches
on len; the branch conditions do not read cur, so the reset is written
inside each branch here. The final else branch is marked unreachable in
the source (len greater than N cannot happen); it is modelled as only
performing the cur reset. -/
def History.push (N : Nat) (h : History) (command : List Char) : History :=
  if command.length = 0 ∨ command.all rustIsWhitespace then h
  else if h.len = N then
    { h with cur := none,
             stored_commands := (h.stored_commands.rotate 1).set (N - 1) command }
  else if h.len < N then
    { h with cur := none,
             stored_commands := h.stored_commands.set h.len command,
             len := h.len + 1 }
  else
    { h with cur := none }

/-- History::pop: resets cur, removes and returns the newest entry,
replacing its slot by the empty Vec (mem take). The in-bounds array read
stored_commands index len is modelled with getD. -/
def History.pop (N : Nat) (h : History) : Option (List Char) × History :=
  if h.len = 0 ∨ h.len > N then (none, { h with cur := none })
  else
    (some ((h.stored_commands[h.len - 1]?).getD []),
     { h with cur := none, len := h.len - 1,
              stored_commands := h.stored_commands.set (h.len - 1) [] })

/-- History::get. -/
def History.get (h : History) (idx : Nat) : Option (List Char) :=
  if idx ≥ h.len then none else h.stored_commands[idx]?

/-- History::newest. -/
def History.newest (h : History) : Option (List Char) :=
  if h.len = 0 then none else h.get (h.len - 1)

/-- History::current: entry referenced by cur via saturating index
len - (cur + 1), or none when cur is absent or the ring is empty. -/
def History.current (h : History) : Option (List Char) :=
  if h.len = 0 then none
  else
    match h.cur with
    | some cur => h.get (h.len - (cur + 1))
    | none => none

/-- State change performed by History::prev: absent cur becomes 0,
otherwise cur is incremented while cur + 1 is below len. -/
def History.prevS (h : History) : History :=
  match h.cur with
  | some cur => if cur + 1 < h.len then { h with cur := some (cur + 1) } else h
  | none => { h with cur := some 0 }

/-- History::prev: mutate cur, then return current of the mutated ring
together with that ring. -/
def History.prev (h : History) : Option (List Char) × History :=
  ((h.prevS).current, h.prevS)

/-- State change performed by History::next: cur of exactly 0 is cleared;
a larger present cur is decremented; an absent cur is kept. -/
def History.nextS (h : History) : History :=
  match h.cur with
  | some 0 => { h with cur := none }
  | some (c + 1) => { h with cur := some c }
  | none => h

/-- History::next: cur of exactly 0 clears cur and yields none; a present
cur is decremented and current of the result is returned; an absent cur
yields the empty entry sentinel. -/
def History.next (h : History) : Option (List Char) × History :=
  match h.cur with
  | some 0 => (none, { h with cur := none })
  | some (c + 1) => (({ h with cur := some c }).current, { h with cur := some c })
  | none => (some [], h)

theorem History.next_snd (h : History) : (h.next).2 = h.nextS := by
  unfold History.next History.nextS
  rcases h.cur with _ | (_ | c) <;> rfl

/-- History::iter: the len stored entries, oldest to newest. -/
def History.iter (h : History) : List (List Char) :=
  h.stored_commands.take h.len

/-- Iterated push, for statements about pushing a whole sequence. -/
def History.pushAll (N : Nat) (h : History) : List (List Char) → History
  | [] => h
  | c :: cs => History.pushAll N (History.push N h c) cs

/-- Iterated state part of prev (the returned ring component). -/
def History.prevN (h : History) : Nat → History
  | 0 => h
  | k + 1 => (h.prevN k).prevS

/-- Iterated state part of next, applied front to back. -/
def History.nextN : History → Nat → History
  | h, 0 => h
  | h, k + 1 => History.nextN h.nextS k

/-- Rings reachable by any sequence of the public History operations. -/
inductive Reachable (N : Nat) : History → Prop where
  | mk_new : Reachable N (History.new N)
  | mk_initial (init : List (List Char)) : Reachable N (History.with_initial N init)
  | step_push {h : History} (cmd : List Char) :
      Reachable N h → Reachable N (History.push N h cmd)
  | step_pop {h : History} : Reachable N h → Reachable N (History.pop N h).2
  | step_prev {h : History} : Reachable N h → Reachable N ((History.prev h).2)
  | step_next {h : History} : Reachable N h → Reachable N ((History.next h).2)

/-- C9: pushing an empty or all-whitespace entry leaves the ring, including
its navigation cursor, completely unchanged. -/
theorem c9_push_whitespace_noop (N : Nat) (h : History) (cmd : List Char)
    (hcmd : cmd = [] ∨ cmd.all rustIsWhitespace) :
    History.push N h cmd = h := by
  unfold History.push
  rcases hcmd with hnil | hws
  · subst hnil; simp
  · rw [if_pos (Or.inr hws)]

theorem c9_push_whitespace_noop_witness :
    History.push 4 (History.new 4) [' ', '\t', '\u000C', ' ', ' '] = History.new 4 :=
  c9_push_whitespace_noop 4 (History.new 4) [' ', '\t', '\u000C', ' ', ' ']
    (Or.inr (by decide))

/-- C1 fails on the code: with_initial writes the given entries into the
slot array but never sets len, so the pre-seeded entries are invisible.
Evaluating the code at the failing input: a ring seeded with one entry
answers none to get 0 and iterates to the empty sequence, and its len is 0. -/
theorem c1_with_initial_entries_invisible :
    (History.with_initial 4 [['a']]).get 0 = none
      ∧ History.iter (History.with_initial 4 [['a']]) = []
      ∧ (History.with_initial 4 [['a']]).len = 0 := by
  decide

/-- C7: next with cursor exactly 0 clears the cursor and returns nothing;
next with the cursor absent returns the empty entry, a value distinct from
nothing; next with a positive cursor decrements it and returns exactly the
entry current refers to in the resulting ring. -/
theorem c7_next_semantics (h : History) :
    (h.cur = some 0 → h.next = (none, { h with cur := none }))
      ∧ (h.cur = none →
          h.next = (some [], h) ∧ (some ([] : List Char) ≠ (none : Option (List Char))))
      ∧ (∀ k : Nat, h.cur = some (k + 1) →
          (h.next).2 = { h with cur := some k }
            ∧ (h.next).1 = ((h.next).2).current) := by
  refine ⟨?_, ?_, ?_⟩
  · intro h0
    simp [History.next, h0]
  · intro hnone
    exact ⟨by simp [History.next, hnone], by simp⟩
  · intro k hk
    simp [History.next, hk]

theorem c7_next_semantics_witness :
    ((History.mk 2 (some 1) [['a'], ['b']]).next).2
        = { History.mk 2 (some 1) [['a'], ['b']] with cur := some 0 }
      ∧ ((History.mk 2 (some 1) [['a'], ['b']]).next).1
        = (((History.mk 2 (some 1) [['a'], ['b']]).next).2).current :=
  (c7_next_semantics (History.mk 2 (some 1) [['a'], ['b']])).2.2 0 rfl

/-- C5 as stated is false: prev on an empty ring puts the cursor at 0 while
len is 0, so a reachable ring has a present cursor that does not satisfy
cursor below len. -/
theorem c5_cursor_invariant_counterexample :
    Reachable 2 ((History.new 2).prev).2
      ∧ ((History.new 2).prev).2.cur = some 0
      ∧ ¬ (0 < ((History.new 2).prev).2.len) :=
  ⟨Reachable.step_prev Reachable.mk_new, by decide, by decide⟩

/-- Loose cursor invariant that actually holds on reachable rings. -/
def cursorInv (h : History) : Prop :=
  ∀ c : Nat, h.cur = some c → c = 0 ∨ c < h.len

theorem push_cases (N : Nat) (h : History) (cmd : List Char) :
    History.push N h cmd = h ∨ (History.push N h cmd).cur = none := by
  unfold History.push
  by_cases h1 : cmd.length = 0 ∨ cmd.all rustIsWhitespace
  · rw [if_pos h1]; exact Or.inl rfl
  · rw [if_neg h1]; right
    by_cases h2 : h.len = N
    · rw [if_pos h2]
    · rw [if_neg h2]
      by_cases h3 : h.len < N
      · rw [if_pos h3]
      · rw [if_neg h3]

theorem pop_cur (N : Nat) (h : History) : (History.pop N h).2.cur = none := by
  unfold History.pop
  split <;> rfl

theorem prevS_len (h : History) : (h.prevS).len = h.len := by
  unfold History.prevS
  rcases h.cur with _ | c
  · rfl
  · dsimp only; split <;> rfl

theorem nextS_len (h : History) : (h.nextS).len = h.len := by
  unfold History.nextS
  rcases h.cur with _ | (_ | c) <;> rfl

theorem cursorInv_push (N : Nat) (h : History) (cmd : List Char)
    (hP : cursorInv h) : cursorInv (History.push N h cmd) := by
  rcases push_cases N h cmd with heq | hnone
  · rw [heq]; exact hP
  · intro c hc; rw [hnone] at hc; cases hc

theorem cursorInv_pop (N : Nat) (h : History) : cursorInv (History.pop N h).2 := by
  intro c hc; rw [pop_cur] at hc; cases hc

theorem cursorInv_prevS (h : History) (hP : cursorInv h) :
    cursorInv h.prevS := by
  intro c hc
  rw [prevS_len]
  unfold History.prevS at hc
  rcases hcur : h.cur with _ | c0
  · rw [hcur] at hc
    simp at hc
    exact Or.inl hc.symm
  · rw [hcur] at hc
    dsimp only at hc
    by_cases hlt : c0 + 1 < h.len
    · rw [if_pos hlt] at hc
      simp at hc
      right; omega
    · rw [if_neg hlt] at hc
      rw [hcur] at hc
      simp at hc
      subst hc
      exact hP c0 hcur

theorem cursorInv_nextS (h : History) (hP : cursorInv h) :
    cursorInv h.nextS := by
  intro c hc
  rw [nextS_len]
  unfold History.nextS at hc
  rcases hcur : h.cur with _ | (_ | c1)
  · rw [hcur] at hc; rw [hcur] at hc; cases hc
  · rw [hcur] at hc; cases hc
  · rw [hcur] at hc
    simp at hc
    rcases hP (c1 + 1) hcur with h0 | hlt
    · cases h0
    · right; omega

/-- C5 amended: on every reachable ring a present navigation cursor is
either 0 or below len; strictly below len can only fail on an empty ring,
where prev parks the cursor at 0. -/
theorem c5_cursor_invariant_amended (N : Nat) (h : History)
    (hr : Reachable N h) : ∀ c : Nat, h.cur = some c → c = 0 ∨ c < h.len := by
  induction hr with
  | mk_new => intro c hc; cases hc
  | mk_initial init => intro c hc; cases hc
  | step_push cmd _ ih => exact cursorInv_push _ _ cmd ih
  | step_pop _ ih => exact cursorInv_pop _ _
  | step_prev _ ih => exact cursorInv_prevS _ ih
  | step_next _ ih =>
    rename_i h' _
    rw [History.next_snd]
    exact cursorInv_nextS h' ih

theorem c5_cursor_invariant_amended_witness :
    (0 = 0) ∨ (0 < ((History.new 2).prev).2.len) :=
  c5_cursor_invariant_amended 2 ((History.new 2).prev).2
    (Reachable.step_prev Reachable.mk_new) 0 rfl

theorem next_of_zero (h : History) (hc : h.cur = some 0) :
    h.next = (none, { h with cur := none }) := by
  unfold History.next; rw [hc]

theorem next_of_succ (h : History) (c : Nat) (hc : h.cur = some (c + 1)) :
    h.next = (({ h with cur := some c }).current, { h with cur := some c }) := by
  unfold History.next; rw [hc]

/-- After k calls to prev from a cursor-absent ring with k at most len and
k positive, the cursor sits at k - 1 and len and the slots are untouched. -/
theorem prevN_state (h : History) (hcur : h.cur = none) :
    ∀ k : Nat, 1 ≤ k → k ≤ h.len →
      (h.prevN k).cur = some (k - 1) ∧ (h.prevN k).len = h.len
        ∧ (h.prevN k).stored_commands = h.stored_commands := by
  intro k
  induction k with
  | zero => intro h1 _; exact absurd h1 (by omega)
  | succ k ih =>
    intro _ hk2
    rcases Nat.eq_zero_or_pos k with hk0 | hkpos
    · subst hk0
      simp only [History.prevN]
      unfold History.prevS
      rw [hcur]
      exact ⟨rfl, rfl, rfl⟩
    · obtain ⟨hc, hl, hs⟩ := ih hkpos (by omega)
      simp only [History.prevN]
      unfold History.prevS
      rw [hc]
      dsimp only
      rw [hl, if_pos (by omega : k - 1 + 1 < h.len)]
      refine ⟨?_, rfl, hs⟩
      dsimp only
      congr 2
      omega

/-- Calling next j + 1 times from a ring whose cursor sits at j clears the
cursor. -/
theorem nextN_clears : ∀ (j : Nat) (h : History), h.cur = some j →
    (h.nextN (j + 1)).cur = none := by
  intro j
  induction j with
  | zero =>
    intro h hc
    show (h.nextS).cur = none
    unfold History.nextS
    rw [hc]
  | succ j ih =>
    intro h hc
    show (History.nextN h.nextS (j + 1)).cur = none
    apply ih
    unfold History.nextS
    rw [hc]

/-- C4 fails as stated: in a ring holding entries a then b (len 2), one
call to prev makes current return the newest entry b at position len - 1,
not the entry at position len - 1 - k = 0, which holds a. -/
theorem c4_counterexample :
    ((History.push 4 (History.push 4 (History.new 4) ['a']) ['b']).prevN 1).current
        = some ['b']
      ∧ (History.push 4 (History.push 4 (History.new 4) ['a']) ['b']).get
          ((History.push 4 (History.push 4 (History.new 4) ['a']) ['b']).len - 1 - 1)
        = some ['a']
      ∧ ((History.push 4 (History.push 4 (History.new 4) ['a']) ['b']).prevN 1).current
        ≠ (History.push 4 (History.push 4 (History.new 4) ['a']) ['b']).get
            ((History.push 4 (History.push 4 (History.new 4) ['a']) ['b']).len - 1 - 1) := by
  decide

/-- C4 amended: after k calls to prev (1 ≤ k ≤ len) from a cursor-absent
ring, current returns the entry at position len - k (not len - 1 - k) and
that entry exists; a subsequent next returns the entry one step newer,
at position len - k + 1, when k is at least 2, and returns nothing when
k = 1 (back to the live line); k calls to next return the cursor to
absent. -/
theorem c4_prev_navigation_amended (N : Nat) (h : History) (k : Nat)
    (hwf : History.wf N h) (hcur : h.cur = none) (hk1 : 1 ≤ k) (hk2 : k ≤ h.len) :
    (h.prevN k).current = h.get (h.len - k)
      ∧ (h.prevN k).current ≠ none
      ∧ (2 ≤ k → ((h.prevN k).next).1 = h.get (h.len - k + 1))
      ∧ (k = 1 → ((h.prevN k).next).1 = none)
      ∧ ((h.prevN k).nextN k).cur = none := by
  obtain ⟨hc, hl, hs⟩ := prevN_state h hcur k hk1 hk2
  obtain ⟨hN, hlN⟩ := hwf
  have hlen0 : ¬ h.len = 0 := by omega
  have hidx : k - 1 + 1 = k := by omega
  have hcurrent : (h.prevN k).current = h.get (h.len - k) := by
    unfold History.current
    rw [hc, hl, if_neg hlen0]
    dsimp only
    rw [hidx]
    unfold History.get
    rw [hl, hs]
  refine ⟨hcurrent, ?_, ?_, ?_, ?_⟩
  · rw [hcurrent]
    unfold History.get
    rw [if_neg (by omega : ¬ h.len - k ≥ h.len)]
    intro hn
    rw [List.getElem?_eq_none_iff] at hn
    omega
  · intro hk2'
    have hc' : (h.prevN k).cur = some ((k - 2) + 1) := by
      rw [hc]; congr 1; omega
    rw [next_of_succ _ _ hc']
    unfold History.current
    dsimp only
    rw [hl, if_neg hlen0]
    unfold History.get
    dsimp only
    rw [hs]
    rw [show h.len - (k - 2 + 1) = h.len - k + 1 from by omega]
  · intro hk1'
    subst hk1'
    rw [next_of_zero _ hc]
  · generalize hgen : h.prevN k = h1 at hc ⊢
    rw [show k = k - 1 + 1 from by omega]
    exact nextN_clears (k - 1) h1 hc

theorem c4_prev_navigation_amended_witness :
    ((History.push 4 (History.push 4 (History.new 4) ['a']) ['b']).prevN 2).current
        = (History.push 4 (History.push 4 (History.new 4) ['a']) ['b']).get
            ((History.push 4 (History.push 4 (History.new 4) ['a']) ['b']).len - 2)
      ∧ (((History.push 4 (History.push 4 (History.new 4) ['a']) ['b']).prevN 2).next).1
        = (History.push 4 (History.push 4 (History.new 4) ['a']) ['b']).get
            ((History.push 4 (History.push 4 (History.new 4) ['a']) ['b']).len - 2 + 1)
      ∧ (((History.push 4 (History.push 4 (History.new 4) ['a']) ['b']).prevN 2).nextN 2).cur
        = none :=
  ⟨(c4_prev_navigation_amended 4 _ 2 (by decide) (by decide) (by decide) (by decide)).1,
   (c4_prev_navigation_amended 4 _ 2 (by decide) (by decide) (by decide) (by decide)).2.2.1
     (by decide),
   (c4_prev_navigation_amended 4 _ 2 (by decide) (by decide) (by decide) (by decide)).2.2.2.2⟩

theorem take_append_take (a b : List (List Char)) (N : Nat) :
    (a ++ b.take N).take N = (a ++ b).take N := by
  rw [List.take_append_eq_append_take, List.take_take,
    Nat.min_eq_left (Nat.sub_le _ _), ← List.take_append_eq_append_take]

theorem push_wf (N : Nat) (h : History) (c : List Char)
    (hwf : History.wf N h) : History.wf N (History.push N h c) := by
  obtain ⟨hN, hlN⟩ := hwf
  unfold History.push
  by_cases h1 : c.length = 0 ∨ c.all rustIsWhitespace
  · rw [if_pos h1]; exact ⟨hN, hlN⟩
  · rw [if_neg h1]
    by_cases h2 : h.len = N
    · rw [if_pos h2]
      exact ⟨by simp [hN], hlN⟩
    · rw [if_neg h2, if_pos (by omega : h.len < N)]
      exact ⟨by simp [hN], by dsimp only; omega⟩

theorem push_iterR (N : Nat) (h : History) (c : List Char)
    (hwf : History.wf N h)
    (hacc : ¬(c.length = 0 ∨ c.all rustIsWhitespace)) :
    ((History.push N h c).iter).reverse = (c :: (h.iter).reverse).take N := by
  obtain ⟨hN, hlN⟩ := hwf
  unfold History.push History.iter
  rw [if_neg hacc]
  by_cases h2 : h.len = N
  · rw [if_pos h2]
    dsimp only
    rcases hsc : h.stored_commands with _ | ⟨a, t⟩
    · rw [hsc] at hN
      simp at hN
      subst h2
      simp [← hN]
    · have hNt : N = t.length + 1 := by
        rw [hsc] at hN; simpa using hN.symm
      rw [List.rotate_cons_succ, List.rotate_zero, h2]
      rw [show N - 1 = t.length from by omega,
        List.set_append_right t.length c (Nat.le_refl t.length),
        Nat.sub_self, List.set_cons_zero]
      rw [List.take_of_length_le
        (show (t ++ [c]).length ≤ N from by simp; omega)]
      rw [List.take_of_length_le
        (show (a :: t).length ≤ N from by simp; omega)]
      rw [show N = t.reverse.length + 1 from by simp; omega,
        List.reverse_append, List.take_succ_cons]
      simp [List.reverse_cons, List.take_left]
  · rw [if_neg h2, if_pos (by omega : h.len < N)]
    dsimp only
    rw [List.set_eq_take_append_cons_drop,
      if_pos (by omega : h.len < h.stored_commands.length)]
    rw [List.take_append_eq_append_take, List.take_take,
      Nat.min_eq_right (Nat.le_succ _), List.length_take,
      Nat.min_eq_left (by omega : h.len ≤ h.stored_commands.length),
      show h.len + 1 - h.len = 1 from by omega, List.take_succ_cons, List.take_zero]
    rw [List.take_of_length_le
      (show (c :: (List.take h.len h.stored_commands).reverse).length ≤ N from by
        simp; omega)]
    simp

theorem pushAll_wf (N : Nat) (cs : List (List Char)) :
    ∀ h : History, History.wf N h → History.wf N (History.pushAll N h cs) := by
  induction cs with
  | nil => intro h hwf; exact hwf
  | cons c cs ih =>
    intro h hwf
    exact ih (History.push N h c) (push_wf N h c hwf)

theorem pushAll_iterR (N : Nat) (cs : List (List Char))
    (hacc : ∀ c ∈ cs, ¬(c.length = 0 ∨ c.all rustIsWhitespace)) :
    ∀ h : History, History.wf N h →
      ((History.pushAll N h cs).iter).reverse
        = (cs.reverse ++ (h.iter).reverse).take N := by
  induction cs with
  | nil =>
    intro h hwf
    simp only [History.pushAll, List.reverse_nil, List.nil_append]
    have hle : ((h.iter).reverse).length ≤ N := by
      unfold History.iter
      rw [List.length_reverse, List.length_take]
      have h1 := hwf.1
      have h2 := hwf.2
      omega
    rw [List.take_of_length_le hle]
  | cons c cs ih =>
    intro h hwf
    simp only [History.pushAll]
    rw [ih (fun x hx => hacc x (List.mem_cons_of_mem c hx)) _ (push_wf N h c hwf)]
    rw [push_iterR N h c hwf (hacc c (List.mem_cons_self c cs))]
    rw [take_append_take]
    simp

/-- C6: pushing more than N non-empty, non-whitespace entries into a
well-formed ring of positive capacity N leaves exactly the N most recently
pushed entries, and iter yields them oldest to newest. -/
theorem c6_capacity_eviction (N : Nat) (h : History) (cmds : List (List Char))
    (hwf : History.wf N h) (hN : 0 < N) (hlen : N < cmds.length)
    (hacc : ∀ c ∈ cmds, c ≠ [] ∧ ¬ c.all rustIsWhitespace) :
    History.iter (History.pushAll N h cmds) = cmds.drop (cmds.length - N)
      ∧ (History.pushAll N h cmds).len = N := by
  have hacc' : ∀ c ∈ cmds, ¬(c.length = 0 ∨ c.all rustIsWhitespace) := by
    intro c hc
    obtain ⟨h1, h2⟩ := hacc c hc
    rw [List.length_eq_zero]
    tauto
  have hiterR := pushAll_iterR N cmds hacc' h hwf
  have htake : (cmds.reverse ++ (h.iter).reverse).take N = cmds.reverse.take N := by
    rw [List.take_append_eq_append_take,
      show N - cmds.reverse.length = 0 from by rw [List.length_reverse]; omega,
      List.take_zero, List.append_nil]
  rw [htake] at hiterR
  have hiter : History.iter (History.pushAll N h cmds) = cmds.drop (cmds.length - N) := by
    have hthis := congrArg List.reverse hiterR
    rw [List.reverse_reverse] at hthis
    rw [hthis, List.take_reverse, List.reverse_reverse]
  refine ⟨hiter, ?_⟩
  have hwf' := pushAll_wf N cmds h hwf
  have hlen' : (History.iter (History.pushAll N h cmds)).length
      = (History.pushAll N h cmds).len := by
    unfold History.iter
    rw [List.length_take]
    have h1 := hwf'.1
    have h2 := hwf'.2
    omega
  rw [hiter] at hlen'
  rw [← hlen', List.length_drop]
  omega

theorem c6_capacity_eviction_witness :
    History.iter (History.pushAll 2 (History.new 2) [['a'], ['b'], ['c']])
        = [['a'], ['b'], ['c']].drop ([['a'], ['b'], ['c']].length - 2)
      ∧ (History.pushAll 2 (History.new 2) [['a'], ['b'], ['c']]).len = 2 :=
  c6_capacity_eviction 2 (History.new 2) [['a'], ['b'], ['c']]
    (by decide) (by decide) (by decide) (by decide)

/-- get_visible_text of src/util.rs: the char indices of the line breaks
are scanned from the end; the element at position max_height of that
descending sequence marks the cut, the offset right after it (or 0 when
there are fewer breaks) starts the returned suffix. Text is modelled at
char granularity, so the byte offsets of char_indices become positions. -/
def get_visible_text (text : List Char) (max_height : Nat) : List Char :=
  let line_breaks :=
    ((List.range text.length).filter fun ix => text[ix]? == some '\n').reverse
  let first_line := ((line_breaks[max_height]?).map (· + 1)).getD 0
  text.drop first_line

/-- Ascending positions of the line-break characters in the text. -/
def newlinePositions (text : List Char) : List Nat :=
  (List.range text.length).filter fun ix => text[ix]? == some '\n'

/-- Start offset in the words of the specification: right after the
(max_height + 1)-th line break counted from the end, or the start of the
text when fewer line breaks exist. -/
def visibleStart (text : List Char) (max_height : Nat) : Nat :=
  let ps := newlinePositions text
  if ps.length ≤ max_height then 0
  else (ps[ps.length - 1 - max_height]?).getD 0 + 1

/-- C8: get_visible_text returns the suffix of the text starting at the
offset right after the line break that sits max_height breaks before the
last one (the start of the text when fewer breaks exist), and a text
without line breaks is returned unchanged for every max_height. -/
theorem c8_get_visible_text (text : List Char) (max_height : Nat) :
    get_visible_text text max_height = text.drop (visibleStart text max_height)
      ∧ ('\n' ∉ text → get_visible_text text max_height = text) := by
  constructor
  · unfold get_visible_text visibleStart
    dsimp only
    rw [show ((List.range text.length).filter fun ix => text[ix]? == some '\n')
        = newlinePositions text from rfl]
    by_cases hlt : (newlinePositions text).length ≤ max_height
    · rw [if_pos hlt]
      rw [show ((newlinePositions text).reverse)[max_height]? = none from by
        rw [List.getElem?_eq_none_iff, List.length_reverse]; exact hlt]
      rfl
    · rw [if_neg hlt]
      push_neg at hlt
      rw [List.getElem?_reverse hlt]
      rcases hp : (newlinePositions text)[(newlinePositions text).length - 1 - max_height]?
        with _ | p
      · rw [List.getElem?_eq_none_iff] at hp
        omega
      · rfl
  · intro hnl
    unfold get_visible_text
    dsimp only
    have hempty : (List.range text.length).filter
        (fun ix => text[ix]? == some '\n') = [] := by
      rw [List.filter_eq_nil_iff]
      intro ix _
      simp only [beq_iff_eq]
      intro hix
      exact hnl (List.getElem?_mem hix)
    rw [hempty]
    rfl

theorem c8_get_visible_text_witness :
    get_visible_text ['h', 'i'] 3 = ['h', 'i'] :=
  (c8_get_visible_text ['h', 'i'] 3).2 (by decide)

/-- Repl struct of src/lib.rs. cursor_pos is u16 in the source; its value
always fits u16 and the casts appear in the operations. -/
structure Repl where
  current_input : List Char
  cursor_pos : Nat
  history : History
  text : List Char
deriving DecidableEq, Repr

/-- Key codes the dispatch table of feed_key_event distinguishes; Other
stands for every other crossterm code. -/
inductive KeyCode where
  | Char (c : Char)
  | Up
  | Down
  | Left
  | Right
  | Home
  | End
  | Backspace
  | Delete
  | Enter
  | Other
deriving DecidableEq, Repr

/-- Modifier sets the dispatch table distinguishes; OTHER stands for every
other combination of crossterm modifier flags. -/
inductive KeyModifiers where
  | NONE
  | CONTROL
  | SHIFT
  | OTHER
deriving DecidableEq, Repr

structure KeyEvent where
  code : KeyCode
  modifiers : KeyModifiers
deriving DecidableEq, Repr

inductive ControlFlow where
  | Break
  | Continue
deriving DecidableEq, Repr

/-- The CommandExecutor collaborator: receives the command and the current
transcript buffer, returns success or failure together with the possibly
mutated buffer (it holds the buffer by mutable reference in the source). -/
def Executor : Type := List Char → List Char → Bool × List Char

/-- Outcome of one feed_key_event call: the resulting session, the control
flow, whether the executor reported an error (propagated by the question
mark operator), and the commands passed to the executor, in order. -/
structure FeedResult where
  repl : Repl
  flow : ControlFlow
  err : Bool
  calls : List (List Char)
deriving DecidableEq, Repr

/-- Repl::set_cursor_pos: clamp(0, current_input.len() as u16). The cast
to u16 truncates mod 65536. -/
def Repl.setCursorPos (r : Repl) (pos : Nat) : Repl :=
  { r with cursor_pos := min pos (r.current_input.length % 65536) }

/-- Repl::feed_key_event, one key event of the dispatch table of
src/lib.rs. A none result models a panic: the unshifted character branch
computes current_input.len() - cursor_pos with unchecked arithmetic, and
the shifted branch calls Vec::insert at cursor_pos, both of which panic
when cursor_pos exceeds the input length. to_uppercase is modelled as the
single-character uppercase mapping. Enter runs Repl::submit inline:
reset cursor, push the line into history, extend the transcript, drain the
input into the executor call. -/
def Repl.feedKeyEvent (N : Nat) (exec : Executor) (r : Repl) (k : KeyEvent) :
    Option FeedResult :=
  match k.code, k.modifiers with
  | KeyCode.Char c, KeyModifiers.CONTROL =>
    if c = 'd' ∨ c = 'q' ∨ c = 'x' then
      some ⟨r, ControlFlow.Break, false, []⟩
    else if c = 'c' then
      let res := exec [] (r.text ++ r.current_input ++ ['^', 'C'])
      some ⟨{ r with current_input := [], cursor_pos := 0, text := res.2 },
            ControlFlow.Continue, !res.1, [[]]⟩
    else
      some ⟨r, ControlFlow.Continue, false, []⟩
  | KeyCode.Up, KeyModifiers.NONE =>
    some ⟨{ r with current_input := ((r.history.prev).1).getD [],
                   history := (r.history.prev).2 },
          ControlFlow.Continue, false, []⟩
  | KeyCode.Down, KeyModifiers.NONE =>
    some ⟨{ r with current_input := ((r.history.next).1).getD [],
                   history := (r.history.next).2 },
          ControlFlow.Continue, false, []⟩
  | KeyCode.Right, KeyModifiers.NONE =>
    some ⟨r.setCursorPos (r.cursor_pos - 1), ControlFlow.Continue, false, []⟩
  | KeyCode.Left, KeyModifiers.NONE =>
    some ⟨r.setCursorPos (min (r.cursor_pos + 1) 65535), ControlFlow.Continue, false, []⟩
  | KeyCode.Home, _ =>
    some ⟨r.setCursorPos (r.current_input.length % 65536), ControlFlow.Continue, false, []⟩
  | KeyCode.End, _ =>
    some ⟨r.setCursorPos 0, ControlFlow.Continue, false, []⟩
  | KeyCode.Char c, KeyModifiers.NONE =>
    if r.cursor_pos ≤ r.current_input.length then
      some ⟨{ r with current_input :=
                r.current_input.insertIdx (r.current_input.length - r.cursor_pos) c },
            ControlFlow.Continue, false, []⟩
    else
      none
  | KeyCode.Char c, KeyModifiers.SHIFT =>
    if r.cursor_pos ≤ r.current_input.length then
      some ⟨{ r with current_input := r.current_input.insertIdx r.cursor_pos c.toUpper },
            ControlFlow.Continue, false, []⟩
    else
      none
  | KeyCode.Backspace, KeyModifiers.NONE | KeyCode.Backspace, KeyModifiers.SHIFT =>
    let r1 := r.setCursorPos r.cursor_pos
    if r1.current_input.length - r1.cursor_pos ≠ 0 then
      some ⟨{ r1 with current_input :=
                r1.current_input.eraseIdx (r1.current_input.length - r1.cursor_pos - 1) },
            ControlFlow.Continue, false, []⟩
    else
      some ⟨r1, ControlFlow.Continue, false, []⟩
  | KeyCode.Delete, KeyModifiers.NONE =>
    let r1 := r.setCursorPos r.cursor_pos
    if r1.cursor_pos ≠ 0 then
      some ⟨{ r1 with
              current_input :=
                r1.current_input.eraseIdx (r1.current_input.length - r1.cursor_pos),
              cursor_pos := r1.cursor_pos - 1 },
            ControlFlow.Continue, false, []⟩
    else
      some ⟨r1, ControlFlow.Continue, false, []⟩
  | KeyCode.Enter, KeyModifiers.NONE | KeyCode.Enter, KeyModifiers.SHIFT =>
    let r1 := r.setCursorPos 0
    let res := exec r1.current_input (r1.text ++ r1.current_input)
    some ⟨{ current_input := [],
            cursor_pos := r1.cursor_pos,
            history := History.push N r1.history r1.current_input,
            text := res.2 },
          ControlFlow.Continue, !res.1, [r1.current_input]⟩
  | _, _ => some ⟨r, ControlFlow.Continue, false, []⟩

/-- Repl::new for the default capacity, and Repl::new_with_history of an
empty history for any capacity: empty input, cursor 0, empty transcript. -/
def Repl.new (N : Nat) : Repl :=
  ⟨[], 0, History.new N, []⟩

/-- An executor that accepts every command and leaves the buffer alone. -/
def execOk : Executor := fun _ text => (true, text)

/-- Feed a list of key events in order, stopping at a panic. -/
def Repl.feedAll (N : Nat) (exec : Executor) : Repl → List KeyEvent → Option Repl
  | r, [] => some r
  | r, k :: ks =>
    match Repl.feedKeyEvent N exec r k with
    | some res => Repl.feedAll N exec res.repl ks
    | none => none

/-- C10: Ctrl plus d, q or x immediately signals Break, leaves the whole
session untouched and performs no executor call, for every executor. -/
theorem c10_ctrl_dqx_break (N : Nat) (exec : Executor) (r : Repl) (c : Char)
    (hc : c = 'd' ∨ c = 'q' ∨ c = 'x') :
    Repl.feedKeyEvent N exec r ⟨KeyCode.Char c, KeyModifiers.CONTROL⟩
      = some ⟨r, ControlFlow.Break, false, []⟩ := by
  simp only [Repl.feedKeyEvent]
  rw [if_pos hc]

theorem c10_ctrl_dqx_break_witness :
    Repl.feedKeyEvent 32 execOk (Repl.new 32) ⟨KeyCode.Char 'd', KeyModifiers.CONTROL⟩
      = some ⟨Repl.new 32, ControlFlow.Break, false, []⟩ :=
  c10_ctrl_dqx_break 32 execOk (Repl.new 32) 'd' (Or.inl rfl)

theorem setCursorPos_inv (r : Repl) (pos : Nat) :
    (r.setCursorPos pos).cursor_pos ≤ (r.setCursorPos pos).current_input.length := by
  unfold Repl.setCursorPos
  dsimp only
  have hm := Nat.mod_le r.current_input.length 65536
  omega

theorem insert_inv (input : List Char) (pos idx : Nat) (c : Char)
    (hidx : idx ≤ input.length) (hpos : pos ≤ input.length) :
    pos ≤ (input.insertIdx idx c).length := by
  rw [List.length_insertIdx idx input hidx]
  omega

theorem backspace_inv (input : List Char) (pos : Nat)
    (hne : input.length - pos ≠ 0) (hpos : pos ≤ input.length) :
    pos ≤ (input.eraseIdx (input.length - pos - 1)).length := by
  rw [List.length_eraseIdx_of_lt (by omega)]
  omega

theorem delete_inv (input : List Char) (pos : Nat)
    (hne : pos ≠ 0) (hpos : pos ≤ input.length) :
    pos - 1 ≤ (input.eraseIdx (input.length - pos)).length := by
  rw [List.length_eraseIdx_of_lt (by omega)]
  omega

/-- C2 as stated is false: a session whose input holds two characters with
the cursor two steps from the end (invariant satisfied) and whose history
holds the single-character entry x violates the invariant after the Up key
replaces the input by that shorter entry, because cursor_pos is not
re-clamped. -/
theorem c2_cursor_invariant_counterexample :
    ((⟨['a', 'b'], 2, History.push 4 (History.new 4) ['x'], []⟩ : Repl).cursor_pos
        ≤ (⟨['a', 'b'], 2, History.push 4 (History.new 4) ['x'], []⟩ : Repl).current_input.length)
      ∧ (Repl.feedKeyEvent 4 execOk
            ⟨['a', 'b'], 2, History.push 4 (History.new 4) ['x'], []⟩
            ⟨KeyCode.Up, KeyModifiers.NONE⟩).map
          (fun res => decide (res.repl.cursor_pos ≤ res.repl.current_input.length))
        = some false := by
  decide

/-- C2 amended: the invariant cursor_pos at most the input length is
preserved by feed_key_event for every key event except Up and Down with no
modifiers, which replace current_input by a history entry without
re-clamping cursor_pos and may therefore break it. -/
theorem c2_cursor_invariant_amended (N : Nat) (exec : Executor) (r : Repl)
    (k : KeyEvent)
    (hinv : r.cursor_pos ≤ r.current_input.length)
    (hk : ¬((k.code = KeyCode.Up ∨ k.code = KeyCode.Down)
            ∧ k.modifiers = KeyModifiers.NONE)) :
    ∀ res : FeedResult, Repl.feedKeyEvent N exec r k = some res →
      res.repl.cursor_pos ≤ res.repl.current_input.length := by
  intro res hres
  obtain ⟨code, mods⟩ := k
  have hm := Nat.mod_le r.current_input.length 65536
  cases code with
  | Char c =>
    cases mods with
    | NONE =>
      simp only [Repl.feedKeyEvent] at hres
      rw [if_pos hinv] at hres
      simp only [Option.some.injEq] at hres
      subst hres
      exact insert_inv _ _ _ _ (by omega) hinv
    | CONTROL =>
      simp only [Repl.feedKeyEvent] at hres
      split at hres
      · simp only [Option.some.injEq] at hres
        subst hres
        exact hinv
      · split at hres
        · simp only [Option.some.injEq] at hres
          subst hres
          exact Nat.le_refl 0
        · simp only [Option.some.injEq] at hres
          subst hres
          exact hinv
    | SHIFT =>
      simp only [Repl.feedKeyEvent] at hres
      rw [if_pos hinv] at hres
      simp only [Option.some.injEq] at hres
      subst hres
      exact insert_inv _ _ _ _ hinv hinv
    | OTHER =>
      simp only [Repl.feedKeyEvent, Option.some.injEq] at hres
      subst hres
      exact hinv
  | Up =>
    cases mods with
    | NONE => exact absurd ⟨Or.inl rfl, rfl⟩ hk
    | CONTROL =>
      simp only [Repl.feedKeyEvent, Option.some.injEq] at hres
      subst hres; exact hinv
    | SHIFT =>
      simp only [Repl.feedKeyEvent, Option.some.injEq] at hres
      subst hres; exact hinv
    | OTHER =>
      simp only [Repl.feedKeyEvent, Option.some.injEq] at hres
      subst hres; exact hinv
  | Down =>
    cases mods with
    | NONE => exact absurd ⟨Or.inr rfl, rfl⟩ hk
    | CONTROL =>
      simp only [Repl.feedKeyEvent, Option.some.injEq] at hres
      subst hres; exact hinv
    | SHIFT =>
      simp only [Repl.feedKeyEvent, Option.some.injEq] at hres
      subst hres; exact hinv
    | OTHER =>
      simp only [Repl.feedKeyEvent, Option.some.injEq] at hres
      subst hres; exact hinv
  | Left =>
    cases mods with
    | NONE =>
      simp only [Repl.feedKeyEvent, Option.some.injEq] at hres
      subst hres
      exact setCursorPos_inv r _
    | CONTROL =>
      simp only [Repl.feedKeyEvent, Option.some.injEq] at hres
      subst hres; exact hinv
    | SHIFT =>
      simp only [Repl.feedKeyEvent, Option.some.injEq] at hres
      subst hres; exact hinv
    | OTHER =>
      simp only [Repl.feedKeyEvent, Option.some.injEq] at hres
      subst hres; exact hinv
  | Right =>
    cases mods with
    | NONE =>
      simp only [Repl.feedKeyEvent, Option.some.injEq] at hres
      subst hres
      exact setCursorPos_inv r _
    | CONTROL =>
      simp only [Repl.feedKeyEvent, Option.some.injEq] at hres
      subst hres; exact hinv
    | SHIFT =>
      simp only [Repl.feedKeyEvent, Option.some.injEq] at hres
      subst hres; exact hinv
    | OTHER =>
      simp only [Repl.feedKeyEvent, Option.some.injEq] at hres
      subst hres; exact hinv
  | Home =>
    cases mods <;>
      (simp only [Repl.feedKeyEvent, Option.some.injEq] at hres
       subst hres
       exact setCursorPos_inv r _)
  | End =>
    cases mods <;>
      (simp only [Repl.feedKeyEvent, Option.some.injEq] at hres
       subst hres
       exact setCursorPos_inv r _)
  | Backspace =>
    cases mods with
    | NONE =>
      simp only [Repl.feedKeyEvent] at hres
      split at hres
      · simp only [Option.some.injEq] at hres
        subst hres
        exact backspace_inv _ _ (by assumption) (by dsimp only [Repl.setCursorPos]; omega)
      · simp only [Option.some.injEq] at hres
        subst hres
        exact setCursorPos_inv r _
    | SHIFT =>
      simp only [Repl.feedKeyEvent] at hres
      split at hres
      · simp only [Option.some.injEq] at hres
        subst hres
        exact backspace_inv _ _ (by assumption) (by dsimp only [Repl.setCursorPos]; omega)
      · simp only [Option.some.injEq] at hres
        subst hres
        exact setCursorPos_inv r _
    | CONTROL =>
      simp only [Repl.feedKeyEvent, Option.some.injEq] at hres
      subst hres; exact hinv
    | OTHER =>
      simp only [Repl.feedKeyEvent, Option.some.injEq] at hres
      subst hres; exact hinv
  | Delete =>
    cases mods with
    | NONE =>
      simp only [Repl.feedKeyEvent] at hres
      split at hres
      · simp only [Option.some.injEq] at hres
        subst hres
        exact delete_inv _ _ (by assumption) (by dsimp only [Repl.setCursorPos]; omega)
      · simp only [Option.some.injEq] at hres
        subst hres
        exact setCursorPos_inv r _
    | CONTROL =>
      simp only [Repl.feedKeyEvent, Option.some.injEq] at hres
      subst hres; exact hinv
    | SHIFT =>
      simp only [Repl.feedKeyEvent, Option.some.injEq] at hres
      subst hres; exact hinv
    | OTHER =>
      simp only [Repl.feedKeyEvent, Option.some.injEq] at hres
      subst hres; exact hinv
  | Enter =>
    cases mods with
    | NONE =>
      simp only [Repl.feedKeyEvent, Option.some.injEq] at hres
      subst hres
      dsimp only [Repl.setCursorPos]
      omega
    | SHIFT =>
      simp only [Repl.feedKeyEvent, Option.some.injEq] at hres
      subst hres
      dsimp only [Repl.setCursorPos]
      omega
    | CONTROL =>
      simp only [Repl.feedKeyEvent, Option.some.injEq] at hres
      subst hres; exact hinv
    | OTHER =>
      simp only [Repl.feedKeyEvent, Option.some.injEq] at hres
      subst hres; exact hinv
  | Other =>
    cases mods <;>
      (simp only [Repl.feedKeyEvent, Option.some.injEq] at hres
       subst hres
       exact hinv)

theorem c2_cursor_invariant_amended_witness :
    (FeedResult.mk ⟨['a'], 0, History.new 4, []⟩ ControlFlow.Continue false []).repl.cursor_pos
      ≤ (FeedResult.mk ⟨['a'], 0, History.new 4, []⟩
          ControlFlow.Continue false []).repl.current_input.length :=
  c2_cursor_invariant_amended 4 execOk (Repl.new 4)
    ⟨KeyCode.Char 'a', KeyModifiers.NONE⟩ (by decide) (by decide)
    ⟨⟨['a'], 0, History.new 4, []⟩, ControlFlow.Continue, false, []⟩ (by decide)

/-- Key sequence reaching the panic from a fresh session: submit x so the
history holds a one-character entry, type abcd, move the cursor four steps
from the end with Left, recall the shorter entry with Up, then type z. -/
def c3_keys : List KeyEvent :=
  [⟨KeyCode.Char 'x', KeyModifiers.NONE⟩,
   ⟨KeyCode.Enter, KeyModifiers.NONE⟩,
   ⟨KeyCode.Char 'a', KeyModifiers.NONE⟩,
   ⟨KeyCode.Char 'b', KeyModifiers.NONE⟩,
   ⟨KeyCode.Char 'c', KeyModifiers.NONE⟩,
   ⟨KeyCode.Char 'd', KeyModifiers.NONE⟩,
   ⟨KeyCode.Left, KeyModifiers.NONE⟩,
   ⟨KeyCode.Left, KeyModifiers.NONE⟩,
   ⟨KeyCode.Left, KeyModifiers.NONE⟩,
   ⟨KeyCode.Left, KeyModifiers.NONE⟩,
   ⟨KeyCode.Up, KeyModifiers.NONE⟩]

/-- C3 fails on the code: the state reached by c3_keys from a fresh
session has cursor_pos 4 and a one-character input, and feeding one more
unshifted printable character computes the insertion position 1 - 4 with
unchecked usize arithmetic, an out-of-bounds panic (modelled as none). -/
theorem c3_unshifted_insert_panics :
    ((Repl.feedAll 32 execOk (Repl.new 32) c3_keys).map
        (fun r => (r.cursor_pos, r.current_input.length)) = some (4, 1))
      ∧ Repl.feedAll 32 execOk (Repl.new 32)
          (c3_keys ++ [⟨KeyCode.Char 'z', KeyModifiers.NONE⟩]) = none := by
  constructor
  · decide
  · decide

end TuiRepl
